import Mathlib

/-!
Verification development for the named-placeholder SQL compiler and the
transactional connection handle of the `namedSQL` repository.

The compiler (`named` in `src/main.ts`) scans a SQL template for `$name`
placeholders, deduplicates the names preserving first-appearance order,
assigns sequential positional indices starting at 1, rewrites each
occurrence with a boundary-aware match, and marshals the argument values
into driver parameters.  The transaction orchestrator
(`Database.transaction` in `src/database.ts`) acquires a pooled
connection, issues `begin`, runs the caller-supplied work, commits on
success, rolls back and rethrows on failure, and releases the connection
in a `finally` block.
-/

set_option autoImplicit false

namespace NamedSQL

/-- Identifier-start characters of a placeholder name: the regex class
`[a-zA-Z_]` used in `/\$([a-zA-Z_][a-zA-Z0-9_]*)/g`. -/
def isIdentStart (c : Char) : Bool := c.isAlpha || c = '_'

/-- Identifier characters, the regex class `\w` = `[a-zA-Z0-9_]`. -/
def isIdentChar (c : Char) : Bool := c.isAlphanum || c = '_'

/-- Left-to-right scan of the template for `/\$([a-zA-Z_][a-zA-Z0-9_]*)/g`
(`query.matchAll` in `named`), returning the matched names (without the
leading `$`) in occurrence order.  Matching is greedy and non-overlapping:
after a match the scan resumes right after the matched identifier; a `$`
not followed by an identifier-start character is skipped.  The first
argument is a structural-recursion bound on the number of scan steps; it
never runs out when it starts at the input length (each step consumes at
least one character). -/
def scanNamesF (fuel : Nat) (l : List Char) : List String :=
  match fuel, l with
  | _, [] => []
  | 0, _ => []
  | fuel + 1, c :: cs =>
    if c = '$' then
      match cs with
      | [] => []
      | d :: ds =>
        if isIdentStart d then
          String.mk (d :: ds.takeWhile isIdentChar) :: scanNamesF fuel (ds.dropWhile isIdentChar)
        else
          scanNamesF fuel (d :: ds)
    else scanNamesF fuel cs

/-- The placeholder scan of a character list. -/
def scanNames (l : List Char) : List String := scanNamesF l.length l

/-- Deduplication by name preserving first-appearance order (the
iteration order of the JavaScript `Set` built in `named`,
`new Set(params)`), with a structural step bound like `scanNamesF`. -/
def dedupFirstF (fuel : Nat) (l : List String) : List String :=
  match fuel, l with
  | _, [] => []
  | 0, _ => []
  | fuel + 1, x :: xs => x :: dedupFirstF fuel (xs.filter (fun y => y ≠ x))

/-- Deduplication by name preserving first-appearance order. -/
def dedupFirst (l : List String) : List String := dedupFirstF l.length l

/-- The distinct placeholder names of a template in first-appearance
order: the contents of `paramsSet` in `named`. -/
def compileNames (query : String) : List String :=
  dedupFirst (scanNames query.data)

/-- Argument values of the `NamedArgs` map:
`Stringable | Date | null` in the source.  A `Date` is identified by its
`toISOString` rendering, an arbitrary other `Stringable` by its
`toString` rendering; arrays (which are `Stringable`) are kept as
numeric or textual arrays as the driver parameter type permits. -/
inductive Value
  | vnull
  | vnum (n : Int)
  | vstr (s : String)
  | vdate (isoString : String)
  | varrNum (ns : List Int)
  | varrStr (ss : List String)
  | vother (str : String)
deriving DecidableEq, Repr

/-- An argument map: association list from names to values, where a key
bound to `none` models a key present with the JavaScript `undefined`
marker.  Lookup of an absent key also yields `undefined`. -/
def NamedArgs : Type := List (String × Option Value)

/-- Property lookup `args[param]`: `none` when the key is absent or bound
to the undefined marker. -/
def getArg : NamedArgs → String → Option Value
  | [], _ => none
  | (k, v) :: rest, key => if key = k then v else getArg rest key

/-- Driver parameter values, `type ParamType = number | number[] | string
| string[] | null` (src/main.ts line 54). -/
inductive ParamType
  | pnum (n : Int)
  | parrNum (ns : List Int)
  | pstr (s : String)
  | parrStr (ss : List String)
  | pnull
deriving DecidableEq, Repr

/-- The value pushed onto `paramArray` for one resolved argument
(src/main.ts lines 96-110): `null` is pushed as null, a number as itself,
a `Date` as its ISO string, an array unconverted, and anything else via
`toString`. -/
def pushedParam : Value → ParamType
  | .vnull => .pnull
  | .vnum n => .pnum n
  | .vdate isoString => .pstr isoString
  | .varrNum ns => .parrNum ns
  | .varrStr ss => .parrStr ss
  | .vstr s => .pstr s
  | .vother str => .pstr str

/-- Whether the first character of the remaining input satisfies the
lookahead `(?=\W|$)`: end of input or a non-`\w` character. -/
def boundaryOk : List Char → Bool
  | [] => true
  | c :: _ => !(isIdentChar c)

/-- `query.replaceAll(new RegExp("\\$" + param + "(?=\\W|$)", "g"),
"$" + idx)`: replace every occurrence of `$` followed by `name` by `rep`,
but only when the occurrence is followed by a non-identifier character or
the end of the string.  Matches are found left to right and are not
rescanned after replacement; after a match the rewrite resumes right
after the matched token.  The first argument is a structural-recursion
bound on the number of rewrite steps, sufficient whenever it starts at
the input length. -/
def replaceTokF (name rep : List Char) (fuel : Nat) (l : List Char) : List Char :=
  match fuel, l with
  | _, [] => []
  | 0, l => l
  | fuel + 1, c :: cs =>
    if c = '$' && name.isPrefixOf cs && boundaryOk (cs.drop name.length) then
      rep ++ replaceTokF name rep fuel (cs.drop name.length)
    else
      c :: replaceTokF name rep fuel cs

/-- The boundary-aware token replacement pass for one placeholder name. -/
def replaceTok (name rep l : List Char) : List Char :=
  replaceTokF name rep l.length l

/-- Whitespace removed by `String.prototype.trim` (the characters that can
occur in the templates at hand). -/
def isJsSpace (c : Char) : Bool :=
  c = ' ' || c = '\t' || c = '\n' || c = '\r'

/-- `query.trim()`: strip leading and trailing whitespace. -/
def trimChars (l : List Char) : List Char :=
  ((l.dropWhile isJsSpace).reverse.dropWhile isJsSpace).reverse

/-- The error thrown by the compiler when a placeholder has no argument
(`MissingArgumentError` in src/main.ts). -/
structure MissingArgumentError where
  arg : String
deriving DecidableEq, Repr

/-- The message attached to the error:
`"missing sql query argument: " + arg`. -/
def MissingArgumentError.message (e : MissingArgumentError) : String :=
  "missing sql query argument: " ++ e.arg

/-- The compiled query (`NamedQueryResult` in src/main.ts). -/
structure NamedQueryResult where
  preparedQuery : String
  params : List ParamType
deriving DecidableEq, Repr

/-- The `for (const param of paramsSet)` loop of `named`: for each
distinct name in order, resolve the argument (throwing
`MissingArgumentError` when the lookup yields undefined), rewrite the
query, push the marshalled parameter, and increment `idx`. -/
def namedLoop (args : NamedArgs) :
    List String → Nat → List Char → List ParamType →
      Except MissingArgumentError (List Char × List ParamType)
  | [], _, query, acc => .ok (query, acc.reverse)
  | p :: ps, idx, query, acc =>
    match getArg args p with
    | none => .error ⟨p⟩
    | some v =>
      namedLoop args ps (idx + 1)
        (replaceTok p.data ('$' :: (Nat.repr idx).data) query)
        (pushedParam v :: acc)

/-- The named-placeholder compiler `named(query, args)` of src/main.ts
lines 75-116. -/
def named (query : String) (args : NamedArgs) :
    Except MissingArgumentError NamedQueryResult :=
  match namedLoop args (compileNames query) 1 query.data [] with
  | .error e => .error e
  | .ok (q, ps) => .ok ⟨String.mk (trimChars q), ps⟩

/-- Reference substitution: rewrite the names one by one in resolution
order, assigning the sequential indices `idx, idx+1, ...`.  This is the
pure text-rewriting component of the compiler loop. -/
def substAll : List String → Nat → List Char → List Char
  | [], _, query => query
  | p :: ps, idx, query =>
    substAll ps (idx + 1) (replaceTok p.data ('$' :: (Nat.repr idx).data) query)

/-- The argument value recorded for a supplied name (defaulting to null
for the total statement; the default is never reached when the name is
supplied). -/
def argVal (args : NamedArgs) (n : String) : Value :=
  (getArg args n).getD .vnull

/-! ### The transaction orchestrator

`Database.transaction` (src/database.ts lines 139-153) and the
`Transaction` handle methods are modelled by their observable behaviour
on the exclusively owned connection: the list of events they produce
(statements issued on the connection, plus checkout and release of the
connection) together with the outcome observed by the caller.  Whether a
given statement fails at the database is supplied by an oracle
`fails : String → Bool`; a statement that is awaited propagates its
failure, a statement whose promise is dropped does not. -/

/-- Observable actions on the pooled connection owned by a transaction. -/
inductive Event
  | connect
  | query (stmt : String)
  | release
deriving DecidableEq, Repr

/-- A finished asynchronous computation on the connection: the events it
produced and the outcome its awaited promise delivers. -/
def TxRes (α : Type) : Type := List Event × Except String α

/-- `await client.query(stmt)`: the statement is issued and its failure
(as decided by the oracle) is observed by the caller. -/
def clientQuery (fails : String → Bool) (stmt : String) : TxRes Unit :=
  ([Event.query stmt], if fails stmt then .error ("query failed: " ++ stmt) else .ok ())

/-- `Transaction.commit` (src/database.ts lines 98-100):
`async commit() \x7b this.#client.query("commit") \x7d` — the statement is
issued, but the promise returned by `client.query` is not awaited and not
returned, so the method's own promise resolves successfully regardless of
whether the commit statement failed. -/
def txCommit (fails : String → Bool) : TxRes Unit :=
  ((clientQuery fails "commit").1, .ok ())

/-- `Transaction.rollback` (src/database.ts lines 102-104): like
`commit`, the statement is issued but its promise is dropped. -/
def txRollback (fails : String → Bool) : TxRes Unit :=
  ((clientQuery fails "rollback").1, .ok ())

/-- `Transaction.release` (src/database.ts lines 106-108): synchronously
return the connection to the pool. -/
def txRelease : TxRes Unit :=
  ([Event.release], .ok ())

/-- Sequencing of awaited steps: if the first step fails, the second
never runs and the failure propagates. -/
def seqRes {α : Type} (a : TxRes Unit) (b : TxRes α) : TxRes α :=
  match a with
  | (ev, .ok ()) => (ev ++ b.1, b.2)
  | (ev, .error e) => (ev, .error e)

/-- JavaScript `try body catch (e) handler(e) finally fin` where the
handler rethrows or returns: the finaliser always runs; a failure of the
finaliser replaces the pending result, otherwise the body's result (or
the handler's, when the body failed) is delivered. -/
def tryCatchFinally (body : TxRes Unit) (handler : String → TxRes Unit)
    (fin : TxRes Unit) : TxRes Unit :=
  match body with
  | (ev, .ok ()) => (ev ++ fin.1, fin.2)
  | (ev, .error e) =>
    match handler e with
    | (hev, hres) =>
      (ev ++ hev ++ fin.1,
        match fin.2 with
        | .error fe => .error fe
        | .ok () => hres)

/-- `Database.transaction(callback)` (src/database.ts lines 139-153):
check out a connection, `await handle.query("begin")`, then run the
caller-supplied work and `tx.commit()` inside `try`, with
`await tx.rollback(); throw err` as the catch handler and `tx.release()`
in the `finally` block.  The caller-supplied work is given by its
observable behaviour `work` (the queries it issues and whether it
throws). -/
def transaction (fails : String → Bool) (work : TxRes Unit) : TxRes Unit :=
  seqRes ([Event.connect], .ok ()) <|
    seqRes (clientQuery fails "begin") <|
      tryCatchFinally (seqRes work (txCommit fails))
        (fun err => seqRes (txRollback fails) ([], .error err))
        txRelease

/-- Whether position `i` of `l` carries a boundary-valid occurrence of the
placeholder token for `name`: a `$`, followed by `name`, followed by a
non-identifier character or the end of the string.  These are exactly the
positions rewritten by `replaceTok`. -/
def tokMatchAt (name l : List Char) (i : Nat) : Bool :=
  match l.drop i with
  | [] => false
  | c :: cs => c = '$' && name.isPrefixOf cs && boundaryOk (cs.drop name.length)

/-- The parameter an argument value contributes to the compiled query,
written following the wording of the amended marshalling claim: a null
argument becomes the null parameter; a numeric argument is passed through
as a numeric parameter; a date becomes its ISO-8601 text form; an array
is passed through unconverted; any other value contributes its textual
(`toString`) rendering. -/
def specParamOfValue : Value → ParamType
  | .vnull => .pnull
  | .vnum n => .pnum n
  | .vdate isoString => .pstr isoString
  | .varrNum ns => .parrNum ns
  | .varrStr ss => .parrStr ss
  | .vstr s => .pstr s
  | .vother str => .pstr str

/-! ### Basic lemmas about the substitution pass -/

theorem replaceTokF_fuel (name rep : List Char) :
    ∀ (fuel fuel' : Nat) (l : List Char), l.length ≤ fuel → l.length ≤ fuel' →
      replaceTokF name rep fuel l = replaceTokF name rep fuel' l := by
  intro fuel
  induction fuel with
  | zero =>
    intro fuel' l hl _
    obtain rfl : l = [] := List.eq_nil_of_length_eq_zero (Nat.le_zero.mp hl)
    cases fuel' <;> rfl
  | succ fuel ih =>
    intro fuel' l hl hl'
    cases l with
    | nil => cases fuel' <;> rfl
    | cons c cs =>
      cases fuel' with
      | zero => simp at hl'
      | succ fuel' =>
        simp only [replaceTokF]
        by_cases hg : (c = '$' && name.isPrefixOf cs && boundaryOk (cs.drop name.length)) = true
        · rw [if_pos hg, if_pos hg,
            ih fuel' (cs.drop name.length)
              (by simp only [List.length_drop]; simp at hl; omega)
              (by simp only [List.length_drop]; simp at hl'; omega)]
        · rw [if_neg hg, if_neg hg, ih fuel' cs (by simpa using hl) (by simpa using hl')]

theorem replaceTok_nil (name rep : List Char) : replaceTok name rep [] = [] := rfl

theorem replaceTok_cons (name rep : List Char) (c : Char) (cs : List Char) :
    replaceTok name rep (c :: cs) =
      if c = '$' && name.isPrefixOf cs && boundaryOk (cs.drop name.length) then
        rep ++ replaceTok name rep (cs.drop name.length)
      else
        c :: replaceTok name rep cs := by
  show replaceTokF name rep (c :: cs).length (c :: cs) = _
  simp only [List.length_cons, replaceTokF]
  by_cases hg : (c = '$' && name.isPrefixOf cs && boundaryOk (cs.drop name.length)) = true
  · rw [if_pos hg, if_pos hg,
      replaceTokF_fuel name rep cs.length (cs.drop name.length).length (cs.drop name.length)
        (by simp only [List.length_drop]; omega) le_rfl]
    rfl
  · rw [if_neg hg, if_neg hg]
    rfl

theorem boundaryOk_append (x y : List Char) (hy : boundaryOk y = true) :
    boundaryOk (x ++ y) = boundaryOk x := by
  cases x with
  | nil => simpa [boundaryOk] using hy
  | cons c cs => simp [boundaryOk]

theorem isPrefixOf_append_of_le (name : List Char) :
    ∀ (u s : List Char), name.length ≤ u.length →
      name.isPrefixOf (u ++ s) = name.isPrefixOf u := by
  induction name with
  | nil => intro u s _; simp [List.isPrefixOf]
  | cons n nt ih =>
    intro u s hle
    cases u with
    | nil => simp at hle
    | cons b u' =>
      simp only [List.cons_append, List.isPrefixOf, List.append_eq]
      rw [ih u' s (by simpa using hle)]

theorem length_le_of_isPrefixOf (name : List Char) :
    ∀ (l : List Char), name.isPrefixOf l = true → name.length ≤ l.length := by
  induction name with
  | nil => intro l _; simp
  | cons n nt ih =>
    intro l hp
    cases l with
    | nil => simp [List.isPrefixOf] at hp
    | cons b l' =>
      simp only [List.isPrefixOf, Bool.and_eq_true] at hp
      simpa using ih l' hp.2

theorem prefix_append_dollar_le (name : List Char) (hname : ∀ c ∈ name, c ≠ '$') :
    ∀ (u w : List Char), name.isPrefixOf (u ++ '$' :: w) = true →
      name.length ≤ u.length := by
  induction name with
  | nil => intro u w _; simp
  | cons n nt ih =>
    intro u w hp
    cases u with
    | nil =>
      simp only [List.nil_append, List.isPrefixOf, Bool.and_eq_true, beq_iff_eq] at hp
      exact absurd hp.1 (hname n (by simp))
    | cons b u' =>
      simp only [List.cons_append, List.isPrefixOf, Bool.and_eq_true] at hp
      have := ih (fun c hc => hname c (by simp [hc])) u' w hp.2
      simpa using this

theorem replaceTok_eq_of_no_match (name rep : List Char) :
    ∀ (l : List Char), (∀ i, tokMatchAt name l i = false) →
      replaceTok name rep l = l := by
  intro l
  induction l with
  | nil => intro _; exact replaceTok_nil name rep
  | cons c cs ih =>
    intro h
    have h0 := h 0
    simp only [tokMatchAt, List.drop_zero] at h0
    rw [replaceTok_cons, if_neg (by simp [h0]), ih]
    intro i
    simpa only [tokMatchAt, List.drop_succ_cons] using h (i + 1)

theorem replaceTok_append_dollar (name rep w : List Char)
    (hname : ∀ c ∈ name, isIdentChar c = true)
    (hno : (name.isPrefixOf w && boundaryOk (w.drop name.length)) = false) :
    ∀ u, replaceTok name rep (u ++ '$' :: w) =
      replaceTok name rep u ++ '$' :: replaceTok name rep w := by
  have hdollar : ∀ c ∈ name, c ≠ '$' := by
    intro c hc he
    have h := hname c hc
    rw [he] at h
    exact absurd h (by decide)
  suffices H : ∀ (k : Nat) (u : List Char), u.length ≤ k →
      replaceTok name rep (u ++ '$' :: w) =
        replaceTok name rep u ++ '$' :: replaceTok name rep w by
    intro u; exact H u.length u le_rfl
  intro k
  induction k with
  | zero =>
    intro u hu
    obtain rfl : u = [] := List.eq_nil_of_length_eq_zero (Nat.le_zero.mp hu)
    simp only [List.nil_append, replaceTok_nil]
    rw [replaceTok_cons, if_neg (by simp [hno])]
  | succ k ih =>
    intro u hu
    cases u with
    | nil =>
      simp only [List.nil_append, replaceTok_nil]
      rw [replaceTok_cons, if_neg (by simp [hno])]
    | cons a u' =>
      have hu' : u'.length ≤ k := by simpa using hu
      rw [List.cons_append, replaceTok_cons]
      by_cases ha : a = '$'
      · subst ha
        have key : (name.isPrefixOf (u' ++ '$' :: w)
              && boundaryOk ((u' ++ '$' :: w).drop name.length))
            = (name.isPrefixOf u' && boundaryOk (u'.drop name.length)) := by
          by_cases hle : name.length ≤ u'.length
          · rw [isPrefixOf_append_of_le name u' ('$' :: w) hle,
              List.drop_append_of_le_length hle,
              boundaryOk_append _ ('$' :: w) rfl]
          · have h1 : name.isPrefixOf u' = false := by
              cases hq : name.isPrefixOf u' with
              | false => rfl
              | true => exact absurd (length_le_of_isPrefixOf name u' hq) (by omega)
            have h2 : name.isPrefixOf (u' ++ '$' :: w) = false := by
              cases hq : name.isPrefixOf (u' ++ '$' :: w) with
              | false => rfl
              | true => exact absurd (prefix_append_dollar_le name hdollar u' w hq) (by omega)
            rw [h1, h2]
            simp
        by_cases hg : (name.isPrefixOf u' && boundaryOk (u'.drop name.length)) = true
        · have hle : name.length ≤ u'.length :=
            length_le_of_isPrefixOf name u' (by
              rcases Bool.and_eq_true_iff.mp hg with ⟨h1, _⟩
              exact h1)
          rw [if_pos (by simp [key, hg]), List.drop_append_of_le_length hle,
            ih (u'.drop name.length)
              (le_trans (by simp only [List.length_drop]; omega) hu'),
            replaceTok_cons, if_pos (by simp [hg]), List.append_assoc]
        · rw [if_neg (by simp [key]; simpa using hg), ih u' hu',
            replaceTok_cons, if_neg (by simp; simpa using hg)]
          simp
      · rw [if_neg (by simp [ha]), ih u' hu', replaceTok_cons, if_neg (by simp [ha])]
        simp

theorem replaceTok_append_no_dollar (name rep : List Char) :
    ∀ (x y : List Char), (∀ c ∈ x, c ≠ '$') →
      replaceTok name rep (x ++ y) = x ++ replaceTok name rep y := by
  intro x
  induction x with
  | nil => intro y _; simp
  | cons a x' ih =>
    intro y hx
    rw [List.cons_append, replaceTok_cons, if_neg (by simp [hx a (by simp)])]
    rw [ih y (fun c hc => hx c (by simp [hc]))]
    simp

theorem specParam_eq_pushed (v : Value) : specParamOfValue v = pushedParam v := by
  cases v <;> rfl

/-! ### Lemmas about scanning and deduplication -/

theorem scanNamesF_identStart :
    ∀ (fuel : Nat) (l : List Char) (n : String), n ∈ scanNamesF fuel l →
      ∃ c cs, n.data = c :: cs ∧ isIdentStart c = true := by
  intro fuel
  induction fuel with
  | zero => intro l n hn; cases l <;> simp [scanNamesF] at hn
  | succ fuel ih =>
    intro l n hn
    cases l with
    | nil => simp [scanNamesF] at hn
    | cons c cs =>
      cases cs with
      | nil =>
        simp only [scanNamesF] at hn
        by_cases hc : c = '$'
        · rw [if_pos hc] at hn
          simp at hn
        · rw [if_neg hc] at hn
          simp at hn
      | cons d ds =>
        simp only [scanNamesF] at hn
        by_cases hc : c = '$'
        · rw [if_pos hc] at hn
          by_cases hd : isIdentStart d = true
          · rw [if_pos hd] at hn
            rcases List.mem_cons.mp hn with hn | hn
            · exact ⟨d, ds.takeWhile isIdentChar, by simp [hn], hd⟩
            · exact ih _ n hn
          · rw [if_neg hd] at hn
            exact ih _ n hn
        · rw [if_neg hc] at hn
          exact ih _ n hn

theorem scanNames_identStart (l : List Char) :
    ∀ n ∈ scanNames l, ∃ c cs, n.data = c :: cs ∧ isIdentStart c = true :=
  fun n hn => scanNamesF_identStart l.length l n hn

theorem mem_dedupFirstF (x : String) :
    ∀ (fuel : Nat) (l : List String), x ∈ dedupFirstF fuel l → x ∈ l := by
  intro fuel
  induction fuel with
  | zero => intro l h; cases l <;> simp [dedupFirstF] at h
  | succ fuel ih =>
    intro l h
    cases l with
    | nil => simp [dedupFirstF] at h
    | cons y ys =>
      simp only [dedupFirstF] at h
      rcases List.mem_cons.mp h with h | h
      · simp [h]
      · exact List.mem_cons_of_mem y (List.mem_of_mem_filter (ih _ h))

theorem mem_dedupFirst (x : String) (l : List String) (h : x ∈ dedupFirst l) :
    x ∈ l :=
  mem_dedupFirstF x l.length l h

theorem dedupFirst_nodup (l : List String) : (dedupFirst l).Nodup := by
  suffices H : ∀ (fuel : Nat) (m : List String), (dedupFirstF fuel m).Nodup from
    H l.length l
  intro fuel
  induction fuel with
  | zero => intro m; cases m <;> simp [dedupFirstF]
  | succ fuel ih =>
    intro m
    cases m with
    | nil => simp [dedupFirstF]
    | cons y ys =>
      simp only [dedupFirstF]
      refine List.nodup_cons.mpr ⟨fun hmem => ?_, ih _⟩
      have := List.of_mem_filter (mem_dedupFirstF y _ _ hmem)
      simp at this

/-! ### Lemmas about the compiler loop -/

theorem namedLoop_error_iff (args : NamedArgs) (m : String) :
    ∀ (names : List String) (idx : Nat) (query : List Char) (acc : List ParamType),
      (namedLoop args names idx query acc = .error ⟨m⟩ ↔
        names.find? (fun n => (getArg args n).isNone) = some m) := by
  intro names
  induction names with
  | nil => intro idx query acc; simp [namedLoop]
  | cons p ps ih =>
    intro idx query acc
    cases hv : getArg args p with
    | none =>
      simp [namedLoop, hv, List.find?, MissingArgumentError.mk.injEq, eq_comm]
    | some v =>
      simp only [namedLoop, hv, List.find?, Option.isNone_some]
      exact ih _ _ _

theorem namedLoop_ok (args : NamedArgs) :
    ∀ (names : List String) (idx : Nat) (query : List Char) (acc : List ParamType),
      (∀ n ∈ names, (getArg args n).isSome) →
      namedLoop args names idx query acc =
        .ok (substAll names idx query,
          acc.reverse ++ names.map (fun n => pushedParam (argVal args n))) := by
  intro names
  induction names with
  | nil => intro idx query acc _; simp [namedLoop, substAll]
  | cons p ps ih =>
    intro idx query acc hall
    obtain ⟨v, hv⟩ := Option.isSome_iff_exists.mp (hall p (by simp))
    simp only [namedLoop, hv]
    rw [ih _ _ _ (fun n hn => hall n (by simp [hn]))]
    simp [substAll, argVal, hv]

/-! ### The claims -/

/-- C1: the claim asserts that when the work callback completes normally
a commit statement is issued (true) and that a failure of the commit
statement is propagated to the caller (false in the code).  Under an
oracle where the `commit` statement fails at the database, the
transaction still resolves successfully: `Transaction.commit` issues
`client.query("commit")` without awaiting or returning the promise, so
the rejection never reaches `Database.transaction`'s caller. -/
theorem transaction_commit_failure_not_propagated :
    transaction (fun s => s == "commit") ([], .ok ()) =
      ([Event.connect, Event.query "begin", Event.query "commit", Event.release],
        .ok ())
    ∧ (fun s => s == "commit") "commit" = true :=
  ⟨rfl, rfl⟩

/-- C2: compilation fails with `MissingArgumentError m` exactly when `m`
is the first placeholder name, in first-appearance order over the
distinct scanned names, whose argument lookup yields the undefined
marker (key absent, or key present but bound to undefined); later
missing names are not collected, and a name bound to null has a `some`
value and therefore never triggers the failure. -/
theorem named_fails_on_first_missing_argument (q : String) (args : NamedArgs)
    (m : String) :
    named q args = .error ⟨m⟩ ↔
      (compileNames q).find? (fun n => (getArg args n).isNone) = some m := by
  rw [← namedLoop_error_iff args m (compileNames q) 1 q.data []]
  unfold named
  cases h : namedLoop args (compileNames q) 1 q.data [] with
  | error e => simp
  | ok val =>
    obtain ⟨a, b⟩ := val
    simp

/-- C3: the example template with a repeated `$created_at` placeholder
compiles to positional text reusing index 3 for both occurrences, with
exactly one parameter entry for each distinct name: the number 300, the
text "admin", and the date's ISO-8601 rendering. -/
theorem named_repeated_placeholder_single_param (T : String) :
    named "insert into record (id, name, created_at, updated_at) values ($id, $name, $created_at, $created_at)"
      [("id", some (.vnum 300)), ("name", some (.vstr "admin")),
        ("created_at", some (.vdate T))] =
      .ok ⟨"insert into record (id, name, created_at, updated_at) values ($1, $2, $3, $3)",
        [.pnum 300, .pstr "admin", .pstr T]⟩ := rfl

/-- C4: substitution is boundary-aware.  (1) In general, an occurrence of
`$name` that is followed by an identifier character is never replaced:
the rewrite of the surrounding text splits around it and leaves the
occurrence intact, so a shorter name is never replaced inside a longer
placeholder.  (2) The template holding both `$country` and
`$country_code` compiles without cross-substitution, each name receiving
its own index. -/
theorem named_substitution_boundary_aware :
    (∀ (name rep u v : List Char) (d : Char),
        (∀ c ∈ name, isIdentChar c = true) → isIdentChar d = true →
        replaceTok name rep (u ++ '$' :: (name ++ d :: v)) =
          replaceTok name rep u ++ '$' :: (name ++ d :: replaceTok name rep v))
    ∧ named "select * from t where country = $country and code = $country_code"
        [("country", some (.vstr "US")), ("country_code", some (.vstr "US1"))] =
      .ok ⟨"select * from t where country = $1 and code = $2",
        [.pstr "US", .pstr "US1"]⟩ := by
  constructor
  · intro name rep u v d hname hd
    have hnd : ∀ c ∈ name ++ [d], c ≠ '$' := by
      intro c hc he
      subst he
      rcases List.mem_append.mp hc with hc | hc
      · exact absurd (hname _ hc) (by decide)
      · simp at hc
        subst hc
        exact absurd hd (by decide)
    have hno : (name.isPrefixOf (name ++ d :: v)
        && boundaryOk ((name ++ d :: v).drop name.length)) = false := by
      rw [List.drop_append_of_le_length le_rfl]
      simp [boundaryOk, hd]
    rw [replaceTok_append_dollar name rep (name ++ d :: v) hname hno u]
    have : name ++ d :: v = (name ++ [d]) ++ v := by simp
    rw [this, replaceTok_append_no_dollar name rep (name ++ [d]) v hnd]
    simp
  · rfl

/-- C4 witness: a concrete instance of the general boundary statement,
with `name = "ab"`, showing an occurrence of `$ab` followed by the
identifier character `c` surviving while the free-standing `$ab` in the
prefix is rewritten. -/
theorem named_substitution_boundary_aware_witness :
    replaceTok "ab".data "$1".data ("x $ab y ".data ++ '$' :: ("ab".data ++ 'c' :: " z".data)) =
      replaceTok "ab".data "$1".data "x $ab y ".data ++
        '$' :: ("ab".data ++ 'c' :: replaceTok "ab".data "$1".data " z".data) :=
  named_substitution_boundary_aware.1 "ab".data "$1".data "x $ab y ".data " z".data 'c'
    (by decide) (by decide)

/-- C5: when every distinct placeholder name of the template is supplied,
compilation succeeds; the rewritten text is the sequential-index rewrite
`substAll` seeded at index 1 over the distinct names in first-appearance
order (so the names receive the consecutive indices 1..k in that order);
the parameter list is exactly the marshalled values of those k distinct
names in the same order (hence has length k); and the distinct-name list
has no duplicates. -/
theorem named_assigns_sequential_indices_in_first_appearance_order
    (q : String) (args : NamedArgs)
    (hall : ∀ n ∈ compileNames q, (getArg args n).isSome) :
    named q args =
      .ok ⟨String.mk (trimChars (substAll (compileNames q) 1 q.data)),
        (compileNames q).map (fun n => pushedParam (argVal args n))⟩
    ∧ ((compileNames q).map (fun n => pushedParam (argVal args n))).length
        = (compileNames q).length
    ∧ (compileNames q).Nodup := by
  refine ⟨?_, by simp, dedupFirst_nodup _⟩
  unfold named
  rw [namedLoop_ok args (compileNames q) 1 q.data [] hall]
  simp

/-- C5 witness: the template `select $a, $b, $a` with both names
supplied. -/
theorem named_assigns_sequential_indices_in_first_appearance_order_witness :
    named "select $a, $b, $a" [("a", some (.vnum 7)), ("b", some (.vstr "s"))] =
      .ok ⟨String.mk (trimChars (substAll (compileNames "select $a, $b, $a") 1
            "select $a, $b, $a".data)),
        (compileNames "select $a, $b, $a").map
          (fun n => pushedParam (argVal [("a", some (.vnum 7)), ("b", some (.vstr "s"))] n))⟩
    ∧ ((compileNames "select $a, $b, $a").map
          (fun n => pushedParam (argVal [("a", some (.vnum 7)), ("b", some (.vstr "s"))] n))).length
        = (compileNames "select $a, $b, $a").length
    ∧ (compileNames "select $a, $b, $a").Nodup :=
  named_assigns_sequential_indices_in_first_appearance_order
    "select $a, $b, $a" [("a", some (.vnum 7)), ("b", some (.vstr "s"))] (by decide)

/-- C6 counterexample: the claim maps every non-null, non-date, non-array
value to its textual `toString` rendering, but a numeric argument is
pushed as a numeric parameter, not as the text `"300"`. -/
theorem named_numeric_arg_not_stringified :
    named "$x" [("x", some (.vnum 300))] = .ok ⟨"$1", [.pnum 300]⟩
    ∧ ParamType.pnum 300 ≠ ParamType.pstr "300" :=
  ⟨rfl, by decide⟩

/-- C6 (amended): for every successfully compiled query, the parameter
sequence is obtained from the distinct names in first-appearance order by
the amended marshalling table `specParamOfValue`: null stays null, a
numeric value is passed through as a numeric parameter, a date becomes
its ISO-8601 text, an array is passed through unconverted, and any other
value contributes its textual (`toString`) rendering. -/
theorem named_params_follow_amended_marshalling (q : String) (args : NamedArgs)
    (r : NamedQueryResult) (h : named q args = .ok r) :
    r.params = (compileNames q).map (fun n => specParamOfValue (argVal args n)) := by
  by_cases hall : ∀ n ∈ compileNames q, (getArg args n).isSome
  · rw [named, namedLoop_ok args (compileNames q) 1 q.data [] hall] at h
    have hr := Except.ok.inj h
    rw [← hr]
    simp [specParam_eq_pushed]
  · push_neg at hall
    obtain ⟨n, hn, hnone⟩ := hall
    have hfind : ((compileNames q).find? (fun n => (getArg args n).isNone)).isSome := by
      rw [List.find?_isSome]
      exact ⟨n, hn, by simpa [Option.isNone_iff_eq_none, Option.not_isSome_iff_eq_none] using hnone⟩
    obtain ⟨m, hm⟩ := Option.isSome_iff_exists.mp hfind
    have := (namedLoop_error_iff args m (compileNames q) 1 q.data []).mpr hm
    rw [named, this] at h
    simp at h

/-- C6 amended-claim witness: a numeric and a null argument marshalled
through a successful compilation. -/
theorem named_params_follow_amended_marshalling_witness :
    ([ParamType.pnum 300, ParamType.pnull] : List ParamType) =
      (compileNames "$x $y").map
        (fun n => specParamOfValue (argVal [("x", some (.vnum 300)), ("y", some .vnull)] n)) :=
  named_params_follow_amended_marshalling "$x $y"
    [("x", some (.vnum 300)), ("y", some .vnull)] ⟨"$1 $2", [.pnum 300, .pnull]⟩ rfl

/-- C7: whenever the `begin` statement succeeds and the work callback
fails with an error `e`, the orchestrator issues the `rollback` statement
on the owned connection and the caller observes the original error `e` —
under every oracle, in particular also when the rollback statement itself
fails at the database (its promise is dropped by `Transaction.rollback`,
so it can never mask the work error). -/
theorem transaction_rollback_and_reraise_on_work_failure
    (fails : String → Bool) (wev : List Event) (e : String)
    (hb : fails "begin" = false) :
    transaction fails (wev, .error e) =
      (Event.connect :: Event.query "begin" ::
        (wev ++ [Event.query "rollback", Event.release]), .error e) := by
  simp [transaction, seqRes, clientQuery, hb, tryCatchFinally, txRollback, txCommit,
    txRelease]

/-- C7 witness: a work callback that issued one insert and then failed
with "boom", under an oracle where the rollback statement itself fails. -/
theorem transaction_rollback_and_reraise_on_work_failure_witness :
    transaction (fun s => s == "rollback") ([Event.query "insert into t"], .error "boom") =
      (Event.connect :: Event.query "begin" ::
        ([Event.query "insert into t"] ++ [Event.query "rollback", Event.release]),
        .error "boom") :=
  transaction_rollback_and_reraise_on_work_failure (fun s => s == "rollback")
    [Event.query "insert into t"] "boom" rfl

/-- C8: whenever the `begin` statement succeeds, the connection is
released back to the pool exactly once, whatever the work callback does
(succeed or fail, with any queries of its own that do not release the
connection themselves) and whatever the oracle decides about the commit
and rollback statements. -/
theorem transaction_releases_connection_exactly_once
    (fails : String → Bool) (work : TxRes Unit)
    (hb : fails "begin" = false) (hw : work.1.count Event.release = 0) :
    (transaction fails work).1.count Event.release = 1 := by
  obtain ⟨wev, wres⟩ := work
  simp only at hw
  cases wres with
  | ok u =>
    cases u
    simp [transaction, seqRes, clientQuery, hb, tryCatchFinally, txCommit, txRelease,
      List.count_append, List.count_cons, hw]
  | error e =>
    simp [transaction, seqRes, clientQuery, hb, tryCatchFinally, txRollback, txCommit,
      txRelease, List.count_append, List.count_cons, hw]

/-- C8 witness: a successful work callback that issued two inserts, under
an oracle where the commit statement fails at the database. -/
theorem transaction_releases_connection_exactly_once_witness :
    (transaction (fun s => s == "commit")
        ([Event.query "insert 1", Event.query "insert 2"], .ok ())).1.count Event.release = 1 :=
  transaction_releases_connection_exactly_once (fun s => s == "commit")
    ([Event.query "insert 1", Event.query "insert 2"], .ok ()) rfl (by decide)

/-- C9: every parameter of a successfully compiled query has one of
exactly five shapes — null, text, numeric, array of text, or array of
numerics — the shapes of the driver parameter type `ParamType`. -/
theorem named_param_shapes_invariant (q : String) (args : NamedArgs)
    (r : NamedQueryResult) (_h : named q args = .ok r) :
    ∀ p ∈ r.params,
      p = .pnull ∨ (∃ s, p = .pstr s) ∨ (∃ n, p = .pnum n)
        ∨ (∃ ss, p = .parrStr ss) ∨ (∃ ns, p = .parrNum ns) := by
  intro p _
  cases p <;> simp

/-- C9 witness: the parameter compiled for a textual argument. -/
theorem named_param_shapes_invariant_witness :
    ParamType.pstr "a" = ParamType.pnull ∨ (∃ s, ParamType.pstr "a" = .pstr s)
      ∨ (∃ n, ParamType.pstr "a" = .pnum n) ∨ (∃ ss, ParamType.pstr "a" = .parrStr ss)
      ∨ (∃ ns, ParamType.pstr "a" = .parrNum ns) :=
  named_param_shapes_invariant "$x" [("x", some (.vstr "a"))] ⟨"$1", [.pstr "a"]⟩ rfl
    (.pstr "a") (by simp)

/-- C10: (1) every name recorded by the placeholder scan starts with an
identifier-start character, so a `$` followed by anything else (a digit
as in an already-positional `$1`, whitespace, another `$`, or nothing) is
never recorded as a placeholder name; (2) the substitution pass for a
scanned placeholder name splits around any `$` that is not followed by an
identifier-start character and leaves it untouched — in particular the
`$k` markers emitted for earlier names are never re-matched or altered by
later substitutions, whose names all start with an identifier-start
character. -/
theorem dollar_without_identifier_untouched :
    (∀ (l : List Char) (n : String), n ∈ scanNames l →
        ∃ c cs, n.data = c :: cs ∧ isIdentStart c = true)
    ∧ (∀ (nh : Char) (nt rep u w : List Char),
        isIdentStart nh = true →
        (∀ c ∈ nh :: nt, isIdentChar c = true) →
        (∀ c, w.head? = some c → isIdentStart c = false) →
        replaceTok (nh :: nt) rep (u ++ '$' :: w) =
          replaceTok (nh :: nt) rep u ++ '$' :: replaceTok (nh :: nt) rep w) := by
  constructor
  · exact fun l => scanNames_identStart l
  · intro nh nt rep u w h1 h2 hw
    apply replaceTok_append_dollar (nh :: nt) rep w h2 _ u
    cases w with
    | nil => simp [List.isPrefixOf]
    | cons c cs =>
      have hc := hw c rfl
      have hpre : ((nh :: nt).isPrefixOf (c :: cs)) = false := by
        have hne : nh ≠ c := fun he => by rw [he] at h1; rw [h1] at hc; cases hc
        simp [List.isPrefixOf, hne]
      simp [hpre]

/-- C10 witness: the name `a` and an emitted positional marker `$1`: the
substitution splits around the marker's `$`. -/
theorem dollar_without_identifier_untouched_witness :
    replaceTok ['a'] "$9".data ("$a ".data ++ '$' :: "1 $a".data) =
      replaceTok ['a'] "$9".data "$a ".data ++ '$' :: replaceTok ['a'] "$9".data "1 $a".data :=
  dollar_without_identifier_untouched.2 'a' [] "$9".data "$a ".data "1 $a".data
    (by decide) (by decide) (by intro c hc; cases hc; decide)

end NamedSQL
